import Mathlib

/-!
# Verification of the PII anonymization core of `python-pdf-extractor`

This file shallowly embeds the core logic of the repository's three engines —
`replacement_engine.py` (fuzzy span matching and smart replacement),
`mapping_engine.py` (forward/reverse replacement maps) and
`leak_detection.py` (post-hoc leak verification) — and proves or refutes the
frozen specification claims about them.

Conventions of the embedding:
* Python strings are modelled as `List Char`; offsets are character offsets,
  as in Python.  Character classes (`\s`, `\w`, ...) are modelled at ASCII
  precision, which covers every concrete input appearing in the development.
* The external `rapidfuzz` similarity library is exposed to the engine as an
  abstract interface `FuzzOps` (three scoring functions `String → String → ℚ`,
  scores in `[0, 100]` like the library's floats); a concrete executable model
  `fuzzModel` of the library's documented semantics is supplied for closed
  evaluations.
* Python's `re` usage in the source is restricted to two pattern shapes
  (literal tokens joined by separator-run classes, produced by
  `find_exact_patterns` and the strategy-3 block of `find_spans`); these are
  embedded by a deterministic matcher that is faithful to the backtracking
  regex semantics on this pattern class, including `re.finditer`'s
  leftmost-nonoverlapping scan and empty-match advancement.
* File I/O (`load_json`, `save_json`) is outside the embedded core: the maps
  and value lists that Python reads from JSON files are taken as arguments.
-/

namespace PdfExtractor

/-! ## Python string primitives (ASCII model) -/

/-- Python's `\s` class (and `str.strip` charset) at ASCII precision:
space, tab, newline, carriage return, vertical tab, form feed. -/
def pyWhitespace (c : Char) : Bool :=
  c = ' ' || c = '\t' || c = '\n' || c = '\r' || c = '\x0b' || c = '\x0c'

/-- Python's `\w` class at ASCII precision: alphanumerics and underscore. -/
def isWordChar (c : Char) : Bool :=
  c.isAlphanum || c = '_'

/-- Python `str.strip()`: drop leading and trailing whitespace. -/
def pyStrip (s : List Char) : List Char :=
  ((s.dropWhile pyWhitespace).reverse.dropWhile pyWhitespace).reverse

/-- Worker for `splitRuns`: `acc` is the current token, reversed. -/
def splitRunsGo (sep : Char → Bool) : List Char → List Char → List (List Char)
  | [], acc => if acc = [] then [] else [acc.reverse]
  | c :: t, acc =>
    if sep c then
      if acc = [] then splitRunsGo sep t []
      else acc.reverse :: splitRunsGo sep t []
    else splitRunsGo sep t (c :: acc)

/-- Split on runs of separator characters, dropping empty pieces.  This is
Python's `re.split(r"[sep]+", s)` composed with filtering out empty parts
(e.g. the `if part` filter of `find_exact_patterns`), and also `str.split()`
when `sep` is the whitespace class. -/
def splitRuns (sep : Char → Bool) (s : List Char) : List (List Char) :=
  splitRunsGo sep s []

/-- `str.split()` with no argument: whitespace-run splitting, no empties. -/
def splitWs (s : List Char) : List (List Char) :=
  splitRuns pyWhitespace s

/-- Python's `re.split(r"[sep]+", s)` keeping boundary empties: a leading
separator run contributes a leading `[]`, a trailing one a trailing `[]`,
and `re.split` on the empty string yields `[""]`. -/
def pySplitRuns (sep : Char → Bool) (s : List Char) : List (List Char) :=
  match s with
  | [] => [[]]
  | c :: _ =>
    let toks := splitRuns sep s
    let toks := if sep c then [] :: toks else toks
    if sep (s.getLastD c) then toks ++ [[]] else toks

/-- Worker for `wordsWithPos`: current offset and the start of the word
currently being scanned, if any. -/
def wordsGo : List Char → Nat → Option Nat → List (Nat × Nat)
  | [], _, none => []
  | [], i, some s => [(s, i)]
  | c :: t, i, none =>
    if pyWhitespace c then wordsGo t (i + 1) none else wordsGo t (i + 1) (some i)
  | c :: t, i, some s =>
    if pyWhitespace c then (s, i) :: wordsGo t (i + 1) none
    else wordsGo t (i + 1) (some s)

/-- `list(re.finditer(r"\S+", s))` reduced to the `(start, end)` offset pairs
of the maximal non-whitespace runs. -/
def wordsWithPos (s : List Char) : List (Nat × Nat) :=
  wordsGo s 0 none

/-- Python slicing `s[a:b]` for `0 ≤ a`, `0 ≤ b` (clamped at the ends). -/
def sliceCL (s : List Char) (a b : Nat) : List Char :=
  (s.take b).drop a

/-- Python's substring containment `needle in hay` (contiguous; the empty
needle is contained in everything, as in Python). -/
def containsSub (hay needle : List Char) : Bool :=
  if needle.isPrefixOf hay then true
  else
    match hay with
    | [] => false
    | _ :: t => containsSub t needle

/-- Join tokens with single spaces (`" ".join(tokens)`). -/
def joinSpaces (toks : List (List Char)) : List Char :=
  List.intercalate [' '] toks

/-- Python `int(q)` for a non-negative rational: truncation toward zero. -/
def intTrunc (q : ℚ) : Nat :=
  q.num.toNat / q.den

namespace ReplacementEngine

/-! ## `replacement_engine.py` -/

/-- Per-field matching configuration (`FIELD_CONFIG` rows). -/
structure FieldConfig where
  threshold : ℚ
  window_extra : Nat
  preserve_case : Bool
  min_window_factor : ℚ
deriving DecidableEq

/-- The `FIELD_CONFIG` table; `FIELD_CONFIG.get(field_type, FIELD_CONFIG['DEFAULT'])`
is modelled by the catch-all arm. -/
def FIELD_CONFIG : String → FieldConfig
  | "Name" => ⟨60, 4, true, 0.4⟩
  | "MRN" => ⟨75, 1, false, 0.7⟩
  | "SSN" => ⟨80, 1, false, 0.8⟩
  | "DOB" => ⟨75, 1, false, 0.8⟩
  | "Sex" => ⟨85, 0, false, 0.9⟩
  | "Phone" => ⟨75, 1, false, 0.8⟩
  | "Email" => ⟨80, 1, false, 0.8⟩
  | "Address" => ⟨80, 5, true, 0.75⟩
  | "Healthcare" => ⟨70, 3, true, 0.6⟩
  | _ => ⟨70, 2, true, 0.6⟩

/-- `normalize`: lowercase, replace punctuation (`[^\w\s]`) by spaces,
collapse whitespace runs to single spaces, strip. -/
def normalize (s : List Char) : List Char :=
  let lowered := s.map Char.toLower
  let depunct := lowered.map fun c =>
    if !isWordChar c && !pyWhitespace c then ' ' else c
  joinSpaces (splitWs depunct)

/-- `normalize_aggressive`: lowercase and keep only `[a-z0-9]`. -/
def normalize_aggressive (s : List Char) : List Char :=
  (s.map Char.toLower).filter fun c => ('a' ≤ c && c ≤ 'z') || c.isDigit

/-- Python `str.isupper()`: at least one cased character and every cased
character uppercase (cased = alphabetic in the ASCII model). -/
def pyIsUpper (s : List Char) : Bool :=
  s.any Char.isAlpha && s.all fun c => !c.isAlpha || c.isUpper

/-- Python `str.capitalize()`: first character uppercased, the rest lowered. -/
def pyCapitalize (w : List Char) : List Char :=
  match w with
  | [] => []
  | c :: t => c.toUpper :: t.map Char.toLower

/-- `preserve_case(original_text, replacement_text)`: copy the case pattern of
the matched text onto the replacement. -/
def preserve_case (original_text replacement_text : List Char) : List Char :=
  if original_text = [] || replacement_text = [] then replacement_text
  else if pyIsUpper original_text then replacement_text.map Char.toUpper
  else
    match original_text with
    | [] => replacement_text.map Char.toLower
    | c :: _ =>
      if c.isUpper then joinSpaces ((splitWs replacement_text).map pyCapitalize)
      else replacement_text.map Char.toLower

/-- Interface to the external `rapidfuzz` library: `fuzz.ratio`,
`fuzz.token_set_ratio` and `fuzz.partial_ratio`, all returning scores in
`[0, 100]`. -/
structure FuzzOps where
  ratio : List Char → List Char → ℚ
  token_set_ratio : List Char → List Char → ℚ
  partial_ratio : List Char → List Char → ℚ

/-- `char_similarity`: `fuzz.ratio` over aggressively normalized strings. -/
def char_similarity (F : FuzzOps) (text1 text2 : List Char) : ℚ :=
  F.ratio (normalize_aggressive text1) (normalize_aggressive text2)

/-! ### The deterministic matcher behind the two regex strategies

Both regex patterns the source builds have the shape
`lit₁ SEP* lit₂ SEP* … litₙ` (strategy 1: `SEP = [,\s]`, no anchors;
strategy 3: `SEP = [\s\-\.]`, wrapped in `\b … \b`), matched case
insensitively.  Because no literal begins with a separator character the
greedy `SEP*` runs never need backtracking, except for a trailing `\b` after
a trailing empty literal, which is resolved exactly below. -/

/-- Case-insensitive literal match of `lit` at offset `pos` (`re.IGNORECASE`). -/
def litAt (lit text : List Char) (pos : Nat) : Bool :=
  (lit.map Char.toLower).isPrefixOf ((text.drop pos).map Char.toLower)

/-- Length of the separator run starting at `pos`. -/
def sepRunLen (sep : Char → Bool) (text : List Char) (pos : Nat) : Nat :=
  ((text.drop pos).takeWhile sep).length

/-- Match the remaining literals, each preceded by a greedy separator run. -/
def matchRest (sep : Char → Bool) (text : List Char) :
    List (List Char) → Nat → Option Nat
  | [], pos => some pos
  | p :: ps, pos =>
    let pos' := pos + sepRunLen sep text pos
    if litAt p text pos' then matchRest sep text ps (pos' + p.length) else none

/-- Match the joined pattern at `pos`; the empty pattern (no parts) matches
the empty string at every position, as `re` does. -/
def matchPartsAt (parts : List (List Char)) (sep : Char → Bool)
    (text : List Char) (pos : Nat) : Option Nat :=
  match parts with
  | [] => some pos
  | p :: ps =>
    if litAt p text pos then matchRest sep text ps (pos + p.length) else none

/-- `re.finditer` driver: scan positions left to right, yield non-overlapping
matches, advance past each match (by one position after an empty match). -/
def scanAux (step : Nat → Option Nat) (len : Nat) : Nat → Nat → List (Nat × Nat)
  | 0, _ => []
  | f + 1, pos =>
    if len < pos then []
    else
      match step pos with
      | some e => (pos, e) :: scanAux step len f (if pos < e then e else pos + 1)
      | none => scanAux step len f (pos + 1)

/-- All matches of the joined pattern over `text` (`re.finditer`). -/
def scanMatches (step : Nat → Option Nat) (text : List Char) : List (Nat × Nat) :=
  scanAux step text.length (text.length + 1) 0

/-- The separator class of `find_exact_patterns`: `[,\s]`. -/
def sepComma (c : Char) : Bool :=
  c = ',' || pyWhitespace c

/-- `find_exact_patterns(text, target_value)`: split the target on `[,\s]+`,
drop empty parts, join the escaped parts with `\s*[,\s]*\s*`, and score every
case-insensitive match with `fuzz.ratio` over normalized strings. -/
def find_exact_patterns (F : FuzzOps) (text target_value : List Char) :
    List (Nat × Nat × List Char × ℚ) :=
  let parts := splitRuns sepComma target_value
  (scanMatches (matchPartsAt parts sepComma text) text).map fun m =>
    let matched_text := sliceCL text m.1 m.2
    (m.1, m.2, matched_text, F.ratio (normalize matched_text) (normalize target_value))

/-- A candidate span `(start, end, matched text, similarity score)`. -/
structure Span where
  start : Nat
  stop : Nat
  text : List Char
  score : ℚ
deriving DecidableEq

/-- Regex `\b` at offset `pos`: exactly one of the neighbouring characters is
a word character. -/
def wordBoundary (text : List Char) (pos : Nat) : Bool :=
  let prevW := match pos with
    | 0 => false
    | p + 1 => ((text.get? p).map isWordChar).getD false
  let nextW := ((text.get? pos).map isWordChar).getD false
  prevW != nextW

/-- The separator class of the strategy-3 pattern: `[\s\-\.]`. -/
def sepDash (c : Char) : Bool :=
  pyWhitespace c || c = '-' || c = '.'

/-- Drop trailing empty literals of a part list. -/
def dropTrailingEmpty (parts : List (List Char)) : List (List Char) :=
  (parts.reverse.dropWhile (· = [])).reverse

/-- Match the strategy-3 pattern `\b p₁ [\-\.\s]* p₂ … \b` at `pos`.  When the
part list ends in empty literals the pattern ends in `…\b`-preceded separator
runs; the regex backtracks that final greedy run, and (since every character
inside the run is a non-word separator) the only two viable match ends are the
end of the full run and its start, tried in that order. -/
def matchS3At (parts : List (List Char)) (text : List Char) (pos : Nat) :
    Option Nat :=
  if !wordBoundary text pos then none
  else
    let core := dropTrailingEmpty parts
    match matchPartsAt core sepDash text pos with
    | none => none
    | some base =>
      if core.length = parts.length then
        if wordBoundary text base then some base else none
      else
        let emax := base + sepRunLen sepDash text base
        if wordBoundary text emax then some emax
        else if wordBoundary text base then some base
        else none

/-- The strategy-3 block of `find_spans` (identifier-like fields only): split
the target on `[\s\-\.]+` (keeping boundary empties, as `re.split` does), and
when there are at least two parts scan for `\b`-anchored matches, keeping
those whose `fuzz.ratio` against the normalized target meets the threshold. -/
def strategy3 (F : FuzzOps) (text target_value norm_target : List Char)
    (threshold : ℚ) : List Span :=
  let pattern_parts := pySplitRuns sepDash target_value
  if 1 < pattern_parts.length then
    (scanMatches (matchS3At pattern_parts text) text).filterMap fun m =>
      let matched_text := sliceCL text m.1 m.2
      let similarity := F.ratio (normalize matched_text) norm_target
      if threshold ≤ similarity then some ⟨m.1, m.2, matched_text, similarity⟩
      else none
  else []

/-- The strategy-2 sliding-window block of `find_spans`: for every window size
from `min_window` to `max_window` and every window of that many words, score
the window text and keep it when the best score meets the threshold. -/
def windowSpans (F : FuzzOps) (text target_value norm_target : List Char)
    (target_len : Nat) (threshold : ℚ) (words : List (Nat × Nat))
    (min_window max_window : Nat) : List Span :=
  (List.range' min_window (max_window + 1 - min_window)).flatMap fun ws =>
    if words.length < ws then []
    else
      (List.range (words.length - ws + 1)).filterMap fun i =>
        let window_words := (words.drop i).take ws
        match window_words.head?, window_words.getLast? with
        | some w0, some wl =>
          let start_pos := w0.1
          let end_pos := wl.2
          let span_text := sliceCL text start_pos end_pos
          let token_score := F.token_set_ratio (normalize span_text) norm_target
          let partial_score := F.partial_ratio (normalize span_text) norm_target
          let similarity :=
            if target_len ≤ 2 || (normalize target_value).length ≤ 15 then
              max (max token_score partial_score)
                (char_similarity F span_text target_value)
            else max token_score partial_score
          if threshold ≤ similarity then
            some ⟨start_pos, end_pos, span_text, similarity⟩
          else none
        | _, _ => none

/-- The strategy-4 single-token fallback of `find_spans`: each word of the
text against the target with `fuzz.partial_ratio` at the boosted threshold
`min(threshold + 15, 95)`. -/
def strategy4 (F : FuzzOps) (text norm_target : List Char) (threshold : ℚ)
    (words : List (Nat × Nat)) : List Span :=
  words.filterMap fun w =>
    let word_text := sliceCL text w.1 w.2
    let similarity := F.partial_ratio (normalize word_text) norm_target
    if min (threshold + 15) 95 ≤ similarity then
      some ⟨w.1, w.2, word_text, similarity⟩
    else none

/-- The sort key of the overlap-resolution step: Python's
`sort(key=lambda x: (-x[3], x[0]))`, i.e. score descending, then start
ascending. -/
def spanKeyLE (a b : Span) : Prop :=
  b.score < a.score ∨ (a.score = b.score ∧ a.start ≤ b.start)

instance : DecidableRel spanKeyLE := fun a b => by
  unfold spanKeyLE; infer_instance

instance : IsTotal Span spanKeyLE :=
  ⟨fun a b => by
    unfold spanKeyLE
    rcases lt_trichotomy a.score b.score with h | h | h
    · exact Or.inr (Or.inl h)
    · rcases le_total a.start b.start with h' | h'
      · exact Or.inl (Or.inr ⟨h, h'⟩)
      · exact Or.inr (Or.inr ⟨h.symm, h'⟩)
    · exact Or.inl (Or.inl h)⟩

instance : IsTrans Span spanKeyLE :=
  ⟨fun a b c hab hbc => by
    unfold spanKeyLE at *
    rcases hab with h1 | ⟨e1, s1⟩ <;> rcases hbc with h2 | ⟨e2, s2⟩
    · exact Or.inl (h2.trans h1)
    · exact Or.inl (e2 ▸ h1)
    · exact Or.inl (e1 ▸ h2)
    · exact Or.inr ⟨e1.trans e2, s1.trans s2⟩⟩

/-- The greedy scan of the overlap-resolution step: accept a span unless its
range intersects a range already in `used_ranges`. -/
def greedyPick : List Span → List (Nat × Nat) → List Span
  | [], _ => []
  | s :: rest, used =>
    if used.any fun u => s.start < u.2 && u.1 < s.stop then greedyPick rest used
    else s :: greedyPick rest (used ++ [(s.start, s.stop)])

/-- The shared overlap-resolution step of `find_spans`: sort all candidate
spans by score descending then start ascending (a stable sort, like Python's)
and greedily keep non-overlapping ones. -/
def resolveOverlaps (all_spans : List Span) : List Span :=
  greedyPick (all_spans.insertionSort spanKeyLE) []

/-- `find_spans(original_text, target_value, field_type, custom_threshold)`:
the four candidate strategies followed by overlap resolution, with the early
returns of the source (empty normalized target; very short targets for
address-like fields; texts with no words, which return the strategy-1 spans
unresolved). -/
def find_spans (F : FuzzOps) (original_text target_value : List Char)
    (field_type : String) (custom_threshold : Option ℚ) : List Span :=
  let config := FIELD_CONFIG field_type
  let threshold := match custom_threshold with
    | some t => if t = 0 then config.threshold else t
    | none => config.threshold
  let norm_target := normalize target_value
  let target_words := splitWs norm_target
  let target_len := target_words.length
  if target_len = 0 then []
  else if (field_type = "Address" || field_type = "Healthcare" ||
      field_type = "FullAddress" || field_type = "StreetOnly" ||
      field_type = "CityStateZip") && norm_target.length < 5 then []
  else
    let exact_spans := (find_exact_patterns F original_text target_value).map
      fun m => Span.mk m.1 m.2.1 m.2.2.1 m.2.2.2
    let words := wordsWithPos original_text
    if words = [] then exact_spans
    else
      let min_window := max 1 (intTrunc ((target_len : ℚ) * config.min_window_factor))
      let max_window := target_len + config.window_extra
      let window_spans := windowSpans F original_text target_value norm_target
        target_len threshold words min_window max_window
      let regex_spans :=
        if field_type = "MRN" || field_type = "SSN" || field_type = "Phone" ||
            field_type = "DOB" || field_type = "Email" then
          strategy3 F original_text target_value norm_target threshold
        else []
      let single_spans :=
        if 2 ≤ target_len then strategy4 F original_text norm_target threshold words
        else []
      resolveOverlaps (exact_spans ++ window_spans ++ regex_spans ++ single_spans)

/-- One entry of the replacement map consumed by `smart_replace`
(`{"field": …, "original": …, "dummy": …}`; the dict keys are not read). -/
structure ReplEntry where
  field : String
  original : List Char
  dummy : List Char
deriving DecidableEq

/-- The cased form of the substitute for one accepted span: `preserve_case`
when the field's config enables case mimicry, the substitute verbatim
otherwise. -/
def final_dummy (config : FieldConfig) (matched_text dummy : List Char) :
    List Char :=
  if config.preserve_case then preserve_case matched_text dummy else dummy

/-- The per-entry processing loop of `smart_replace`: skip entries with empty
original or dummy, find the entry's spans, and emit one
`(start, end, final_dummy)` replacement per span, case-adjusted when the
field's config asks for it. -/
def all_replacements (F : FuzzOps) (text : List Char)
    (replacement_map : List ReplEntry)
    (custom_thresholds : String → Option ℚ) : List (Nat × Nat × List Char) :=
  replacement_map.flatMap fun entry =>
    if entry.original = [] || entry.dummy = [] then []
    else
      let threshold := custom_thresholds entry.field
      let spans := find_spans F text entry.original entry.field threshold
      let config := FIELD_CONFIG entry.field
      spans.map fun sp =>
        (sp.start, sp.stop, final_dummy config sp.text entry.dummy)

/-- The descending-start order of `smart_replace`'s
`sort(key=lambda x: x[0], reverse=True)`. -/
def replGE (a b : Nat × Nat × List Char) : Prop :=
  b.1 ≤ a.1

instance : DecidableRel replGE := fun a b => by
  unfold replGE; infer_instance

instance : IsTotal (Nat × Nat × List Char) replGE :=
  ⟨fun a b => (le_total b.1 a.1).imp id id⟩

instance : IsTrans (Nat × Nat × List Char) replGE :=
  ⟨fun _ _ _ hab hbc => le_trans hbc hab⟩

/-- The duplicate-removal loop of `smart_replace`: keep the first occurrence
of every exact `(start, end)` range. -/
def dedupRanges : List (Nat × Nat × List Char) → List (Nat × Nat) →
    List (Nat × Nat × List Char)
  | [], _ => []
  | r :: rest, seen =>
    if (r.1, r.2.1) ∈ seen then dedupRanges rest seen
    else r :: dedupRanges rest ((r.1, r.2.1) :: seen)

/-- One splice `result_text[:start] + dummy + result_text[end:]`. -/
def splice (t : List Char) (s e : Nat) (d : List Char) : List Char :=
  t.take s ++ d ++ t.drop e

/-- The application loop of `smart_replace`: splice each replacement into the
working text, in list order (highest start first after the sort). -/
def applyEdits (t : List Char) : List (Nat × Nat × List Char) → List Char
  | [] => t
  | (s, e, d) :: rest => applyEdits (splice t s e d) rest

/-- The `unique_replacements` list of `smart_replace`: all per-entry
replacements, sorted by start descending, with exact-duplicate ranges
dropped.  These are the replacements actually applied. -/
def smart_replace_unique (F : FuzzOps) (text : List Char)
    (replacement_map : List ReplEntry)
    (custom_thresholds : String → Option ℚ) : List (Nat × Nat × List Char) :=
  dedupRanges
    ((all_replacements F text replacement_map custom_thresholds).insertionSort replGE)
    []

/-- `smart_replace(text, replacement_map, custom_thresholds)` (non-verbose
path): the rewritten text and the number of replacements applied. -/
def smart_replace (F : FuzzOps) (text : List Char)
    (replacement_map : List ReplEntry)
    (custom_thresholds : String → Option ℚ) : List Char × Nat :=
  let unique := smart_replace_unique F text replacement_map custom_thresholds
  (applyEdits text unique, unique.length)

end ReplacementEngine

namespace MappingEngine

/-! ## `mapping_engine.py` -/

/-- `normalize(value)`: lowercase, collapse whitespace runs to single spaces,
strip. -/
def normalize (s : String) : String :=
  String.mk (joinSpaces (splitWs (s.toList.map Char.toLower)))

/-- One record of `replacement_pii.json` / `master_pii.json`. -/
structure MapEntry where
  field : String
  original : String
  dummy : String
deriving DecidableEq

/-- A Python dict of records, in insertion order. -/
abbrev RMap := List (String × MapEntry)

/-- The `f"{field}::{normalize(original_value)}"` key. -/
def mkKey (field original : String) : String :=
  field ++ "::" ++ normalize original

/-- The `f"[REDACTED-{field}-{len(replacement_map)}]"` fallback substitute. -/
def redacted (field : String) (n : Nat) : String :=
  "[REDACTED-" ++ field ++ "-" ++ toString n ++ "]"

/-- The body of `build_replacement_map`'s inner loop, for one PII value:
skip empty values and already-mapped keys; otherwise assign an unused
substitute from the pool (chosen by the injected random index `pick`, as
`random.choice` does) or the `[REDACTED-…]` fallback when none remains, and
record it.  The state is `(replacement_map, used_dummies)`. -/
def process_value (pick : List String → Nat) (field : String)
    (dummy_pool : List String) (st : RMap × List String) (original_value : String) :
    RMap × List String :=
  if original_value = "" then st
  else
    let key := mkKey field original_value
    if (st.1.lookup key).isSome then st
    else
      let available_dummies := dummy_pool.filter fun d => !st.2.contains d
      let dummy_value :=
        if available_dummies ≠ [] then
          available_dummies.getD (pick available_dummies % available_dummies.length) ""
        else redacted field st.1.length
      (st.1 ++ [(key, ⟨field, original_value, dummy_value⟩)], dummy_value :: st.2)

/-- The body of `build_replacement_map`'s outer loop, for one field: fetch the
field's substitute pool (`dummy_data.get(field, [])`) and skip the whole
field when it is empty or missing, else process every value. -/
def process_field (pick : List String → Nat)
    (dummy_data : List (String × List String)) (st : RMap × List String)
    (fv : String × List String) : RMap × List String :=
  let dummy_pool := (dummy_data.lookup fv.1).getD []
  if dummy_pool = [] then st
  else fv.2.foldl (process_value pick fv.1 dummy_pool) st

/-- `build_replacement_map(pii_data, dummy_data)` with the previously
persisted map passed in as `existing` (the source loads it from
`output_path`): mark every already-assigned substitute as used, then process
every field. -/
def build_replacement_map (pick : List String → Nat) (existing : RMap)
    (pii_data dummy_data : List (String × List String)) : RMap :=
  let used_dummies := existing.map fun p => p.2.dummy
  (pii_data.foldl (process_field pick dummy_data) (existing, used_dummies)).1

/-- Python dict assignment `m[k] = v`: overwrite in place if the key exists,
else append. -/
def dictSet : RMap → String → MapEntry → RMap
  | [], k, v => [(k, v)]
  | (k', v') :: rest, k, v =>
    if k' = k then (k, v) :: rest else (k', v') :: dictSet rest k v

/-- The reverse key `f"{field}::{normalize(dummy)}"`. -/
def revKey (e : MapEntry) : String :=
  mkKey e.field e.dummy

/-- The body of `build_master_pii`'s loop: skip records with an empty side,
otherwise store the record with `original` and `dummy` swapped under the
reverse key (dict assignment, so a repeated reverse key overwrites). -/
def masterStep (master : RMap) (p : String × MapEntry) : RMap :=
  if p.2.dummy = "" || p.2.original = "" then master
  else dictSet master (revKey p.2) ⟨p.2.field, p.2.dummy, p.2.original⟩

/-- `build_master_pii(replacement_map)`: one reverse record per forward record
with `original` and `dummy` swapped, skipping records with an empty side. -/
def build_master_pii (replacement_map : RMap) : RMap :=
  replacement_map.foldl masterStep []

end MappingEngine

namespace LeakDetection

/-! ## `leak_detection.py` -/

/-- `normalize(value)`: lowercase, then remove `[\s\-\(\)\.,#]`. -/
def normalize (s : List Char) : List Char :=
  (s.map Char.toLower).filter fun c =>
    !(pyWhitespace c || c = '-' || c = '(' || c = ')' || c = '.' || c = ',' || c = '#')

/-- One record of `detected-leaks.json`'s `leaked_fields` (exactly the four
fields `check_pii_leak` reads and copies). -/
structure LeakCandidate where
  pii_type : String
  matched_text : String
  page : Nat
  confidence : ℚ
deriving DecidableEq

/-- The verdict dict returned by `check_pii_leak`: the `leaks` list is present
exactly when a leak was confirmed, the `message` exactly when none was. -/
structure LeakVerdict where
  real_pii_leak : Bool
  total_real_leaks : Nat
  leaks : Option (List LeakCandidate)
  message : Option String
deriving DecidableEq

/-- The `normalized_originals` list: normalize every sensitive value whose
`strip()` is non-empty. -/
def normalized_originals (original_values : List String) : List (List Char) :=
  (original_values.filter fun v => !(pyStrip v.toList).isEmpty).map
    fun v => normalize v.toList

/-- The inner loop of `check_pii_leak`: the candidate's normalized text is
confirmed by the first non-empty normalized original that contains it or is
contained in it (the `break` makes the loop an existence test). -/
def leak_matches (origs : List (List Char)) (normalized_detected : List Char) :
    Bool :=
  origs.any fun original =>
    !original.isEmpty &&
      (containsSub normalized_detected original ||
        containsSub original normalized_detected)

/-- `check_pii_leak`, after the JSON loads: collect the candidates confirmed
by some original (the for-append-break loop is a filter that copies each
confirmed candidate's four fields once), then build the verdict. -/
def check_pii_leak (original_values : List String)
    (leaked_fields : List LeakCandidate) : LeakVerdict :=
  let origs := normalized_originals original_values
  let confirmed_leaks := leaked_fields.filter fun item =>
    leak_matches origs (normalize item.matched_text.toList)
  if confirmed_leaks ≠ [] then
    ⟨true, confirmed_leaks.length, some confirmed_leaks, none⟩
  else
    ⟨false, 0, none, some "No original PII leakage found"⟩

end LeakDetection

/-! ## An executable model of the `rapidfuzz` scoring functions

The engine definitions above take the library as the abstract `FuzzOps`
interface; the closed evaluations below instantiate it with this model of the
library's documented semantics (`fuzz.ratio` is the normalized indel
similarity scaled to `[0, 100]`; `fuzz.partial_ratio` the best ratio of the
shorter string against same-length windows of the longer;
`fuzz.token_set_ratio` the classic sorted-token-set construction). -/

/-- Longest common subsequence length, with enough fuel to be total
(every recursive call reduces the total length by one). -/
def lcsFuel : Nat → List Char → List Char → Nat
  | 0, _, _ => 0
  | _ + 1, [], _ => 0
  | _ + 1, _, [] => 0
  | f + 1, a :: as, b :: bs =>
    if a = b then lcsFuel f as bs + 1
    else max (lcsFuel f (a :: as) bs) (lcsFuel f as (b :: bs))

/-- Longest common subsequence length. -/
def lcsLen (a b : List Char) : Nat :=
  lcsFuel (a.length + b.length) a b

/-- Model of `fuzz.ratio`: `100 * (1 - indel_distance / (|a| + |b|))`, which
equals `200 * lcs / (|a| + |b|)`; two empty strings score 100. -/
def ratioQ (a b : List Char) : ℚ :=
  if a.length + b.length = 0 then 100
  else (200 * lcsLen a b : ℚ) / (a.length + b.length)

/-- All length-`k` windows of `s`. -/
def windowsOf (s : List Char) (k : Nat) : List (List Char) :=
  (List.range (s.length + 1 - k)).map fun i => (s.drop i).take k

/-- Model of `fuzz.partial_ratio`: best `ratio` of the shorter string against
the same-length windows of the longer. -/
def partialRatioQ (a b : List Char) : ℚ :=
  let sh := if a.length ≤ b.length then a else b
  let lo := if a.length ≤ b.length then b else a
  ((windowsOf lo sh.length).map (ratioQ sh)).foldl max 0

/-- Code-point lexicographic order on token strings (Python `sorted`). -/
def lexLe : List Char → List Char → Bool
  | [], _ => true
  | _ :: _, [] => false
  | a :: as, b :: bs =>
    if a = b then lexLe as bs else decide (a.toNat < b.toNat)

/-- Model of `fuzz.token_set_ratio`: sort and deduplicate the whitespace
tokens of both strings, build the joined intersection and the two joined
intersection-plus-difference strings, and take the best pairwise `ratio`. -/
def tokenSetRatioQ (a b : List Char) : ℚ :=
  let ta := (splitWs a).dedup
  let tb := (splitWs b).dedup
  let sect := (ta.filter (· ∈ tb)).insertionSort fun x y => lexLe x y = true
  let da := (ta.filter (· ∉ tb)).insertionSort fun x y => lexLe x y = true
  let db := (tb.filter (· ∉ ta)).insertionSort fun x y => lexLe x y = true
  let s0 := joinSpaces sect
  let s1 := pyStrip (joinSpaces (sect ++ da))
  let s2 := pyStrip (joinSpaces (sect ++ db))
  max (ratioQ s0 s1) (max (ratioQ s0 s2) (ratioQ s1 s2))

/-- The concrete `FuzzOps` instance used for closed evaluations. -/
def fuzzModel : ReplacementEngine.FuzzOps :=
  ⟨ratioQ, tokenSetRatioQ, partialRatioQ⟩

/-- The alternative replacement application the spec offers as equivalent to
`smart_replace`'s highest-offset-first splicing: "an explicit list of
(range, replacement) edits applied via a single linear text-builder pass".
`pos` is the cursor; each edit copies the untouched text before it and then
its replacement. -/
def buildLinear (t : List Char) : Nat → List (Nat × Nat × List Char) → List Char
  | pos, [] => t.drop pos
  | pos, (s, e, d) :: rest => (t.take s).drop pos ++ d ++ buildLinear t e rest

/-! ## Helper lemmas: splicing versus the linear builder pass -/

theorem splice_length_ge (t : List Char) (s e : Nat) (d : List Char)
    (h : s ≤ t.length) : s ≤ (ReplacementEngine.splice t s e d).length := by
  simp only [ReplacementEngine.splice, List.length_append, List.length_take,
    List.length_drop]
  omega

theorem buildLinear_append (asc : List (Nat × Nat × List Char)) :
    ∀ (t : List Char) (pos s e : Nat) (d : List Char),
      pos ≤ s → s ≤ t.length →
      (∀ x ∈ asc, x.1 ≤ x.2.1 ∧ x.2.1 ≤ s) →
      buildLinear t pos (asc ++ [(s, e, d)]) =
        buildLinear (ReplacementEngine.splice t s e d) pos asc := by
  induction asc with
  | nil =>
    intro t pos s e d hpos hlen _
    have hA : pos ≤ (t.take s).length := by
      simp only [List.length_take]; omega
    simp only [List.nil_append, buildLinear, ReplacementEngine.splice]
    rw [List.append_assoc, List.append_assoc, List.drop_append_of_le_length hA]
  | cons x asc ih =>
    intro t pos s e d hpos hlen hasc
    obtain ⟨s', e', d'⟩ := x
    have hx := hasc _ (List.mem_cons_self _ _)
    have hs' : s' ≤ s := le_trans hx.1 hx.2
    simp only [List.cons_append, buildLinear, List.append_eq]
    rw [ih t e' s e d hx.2 hlen (fun y hy => hasc y (List.mem_cons_of_mem _ hy))]
    have htake : (ReplacementEngine.splice t s e d).take s' = t.take s' := by
      have hA : s' ≤ (t.take s).length := by
        simp only [List.length_take]; omega
      simp only [ReplacementEngine.splice]
      rw [List.append_assoc, List.take_append_of_le_length hA, List.take_take,
        min_eq_left hs']
    rw [htake]

/-! ## Helper lemmas: the greedy overlap scan and duplicate-range removal -/

theorem greedyPick_sublist (l : List ReplacementEngine.Span) :
    ∀ used, List.Sublist (ReplacementEngine.greedyPick l used) l := by
  induction l with
  | nil => intro used; simp [ReplacementEngine.greedyPick]
  | cons a rest ih =>
    intro used
    simp only [ReplacementEngine.greedyPick]
    split
    · exact (ih used).cons _
    · exact (ih _).cons₂ _

theorem greedyPick_avoids (l : List ReplacementEngine.Span) :
    ∀ used, ∀ s ∈ ReplacementEngine.greedyPick l used,
      ∀ u ∈ used, ¬(s.start < u.2 ∧ u.1 < s.stop) := by
  induction l with
  | nil => intro used s hs; simp [ReplacementEngine.greedyPick] at hs
  | cons a rest ih =>
    intro used s hs u hu
    simp only [ReplacementEngine.greedyPick] at hs
    split at hs
    · exact ih used s hs u hu
    · next hov =>
      rcases List.mem_cons.mp hs with rfl | hs'
      · intro hcon
        have hne : (used.any fun x => s.start < x.2 && x.1 < s.stop) = true :=
          List.any_eq_true.mpr ⟨u, hu, by simp [hcon.1, hcon.2]⟩
        exact hov hne
      · exact ih _ s hs' u (List.mem_append_left _ hu)

theorem greedyPick_pairwise (l : List ReplacementEngine.Span) :
    ∀ used, (ReplacementEngine.greedyPick l used).Pairwise
      fun a b => ¬(a.start < b.stop ∧ b.start < a.stop) := by
  induction l with
  | nil => intro used; simp [ReplacementEngine.greedyPick]
  | cons a rest ih =>
    intro used
    simp only [ReplacementEngine.greedyPick]
    split
    · exact ih used
    · refine List.Pairwise.cons ?_ (ih _)
      intro b hb
      have h := greedyPick_avoids rest _ b hb (a.start, a.stop)
        (List.mem_append_right _ (List.mem_singleton_self _))
      tauto

theorem resolveOverlaps_nonoverlap (l : List ReplacementEngine.Span) :
    (ReplacementEngine.resolveOverlaps l).Pairwise
      fun a b => ¬(a.start < b.stop ∧ b.start < a.stop) :=
  greedyPick_pairwise _ []

theorem resolveOverlaps_sorted (l : List ReplacementEngine.Span) :
    List.Sorted ReplacementEngine.spanKeyLE (ReplacementEngine.resolveOverlaps l) :=
  (List.sorted_insertionSort ReplacementEngine.spanKeyLE l).sublist
    (greedyPick_sublist _ [])

theorem dedupRanges_sublist (l : List (Nat × Nat × List Char)) :
    ∀ seen, List.Sublist (ReplacementEngine.dedupRanges l seen) l := by
  induction l with
  | nil => intro seen; simp [ReplacementEngine.dedupRanges]
  | cons a rest ih =>
    intro seen
    simp only [ReplacementEngine.dedupRanges]
    split
    · exact (ih seen).cons _
    · exact (ih _).cons₂ _

theorem dedupRanges_avoids (l : List (Nat × Nat × List Char)) :
    ∀ seen, ∀ r ∈ ReplacementEngine.dedupRanges l seen, (r.1, r.2.1) ∉ seen := by
  induction l with
  | nil => intro seen r hr; simp [ReplacementEngine.dedupRanges] at hr
  | cons a rest ih =>
    intro seen r hr
    simp only [ReplacementEngine.dedupRanges] at hr
    split at hr
    · exact ih seen r hr
    · next hnm =>
      rcases List.mem_cons.mp hr with rfl | hr'
      · exact hnm
      · intro hmem
        exact ih _ r hr' (List.mem_cons_of_mem _ hmem)

theorem dedupRanges_pairwise (l : List (Nat × Nat × List Char)) :
    ∀ seen, (ReplacementEngine.dedupRanges l seen).Pairwise
      fun a b => ¬(a.1 = b.1 ∧ a.2.1 = b.2.1) := by
  induction l with
  | nil => intro seen; simp [ReplacementEngine.dedupRanges]
  | cons a rest ih =>
    intro seen
    simp only [ReplacementEngine.dedupRanges]
    split
    · exact ih seen
    · refine List.Pairwise.cons ?_ (ih _)
      intro b hb hcon
      have := dedupRanges_avoids rest _ b hb
      apply this
      have : (b.1, b.2.1) = (a.1, a.2.1) := by
        simp [Prod.ext_iff, hcon.1.symm, hcon.2.symm]
      rw [this]
      exact List.mem_cons_self _ _

/-! ## Claim C9: highest-start-first splicing equals the linear builder pass -/

/-- C9.  For any list of replacement edits that is strictly decreasing in
start offset (the order `smart_replace` applies them in), pairwise
non-overlapping, and within the text's bounds, applying them by sequential
splicing (`applyEdits`, the loop of `smart_replace`) produces exactly the
text of a single left-to-right builder pass over the same edits in ascending
order (`buildLinear`, the spec's alternative formulation).  In particular
each splice leaves the offsets of all not-yet-applied (lower-start) edits
valid. -/
theorem applyEdits_eq_buildLinear (t : List Char)
    (L : List (Nat × Nat × List Char))
    (hdesc : L.Pairwise fun a b => b.1 < a.1)
    (hnov : L.Pairwise fun a b => ¬(a.1 < b.2.1 ∧ b.1 < a.2.1))
    (hb : ∀ x ∈ L, x.1 ≤ x.2.1 ∧ x.2.1 ≤ t.length) :
    ReplacementEngine.applyEdits t L = buildLinear t 0 L.reverse := by
  induction L generalizing t with
  | nil => simp [ReplacementEngine.applyEdits, buildLinear]
  | cons x L ih =>
    obtain ⟨s, e, d⟩ := x
    have hx := hb _ (List.mem_cons_self _ _)
    have hdesc' := List.pairwise_cons.mp hdesc
    have hnov' := List.pairwise_cons.mp hnov
    have hrest : ∀ y ∈ L, y.1 ≤ y.2.1 ∧ y.2.1 ≤ s := by
      intro y hy
      have h1 := (hb y (List.mem_cons_of_mem _ hy)).1
      have h2 := hdesc'.1 y hy
      have h3 := hnov'.1 y hy
      constructor
      · exact h1
      · by_contra hgt
        exact h3 ⟨by omega, by omega⟩
    simp only [ReplacementEngine.applyEdits, List.reverse_cons]
    rw [buildLinear_append L.reverse t 0 s e d (Nat.zero_le _)
      (le_trans hx.1 hx.2)
      (fun y hy => hrest y (List.mem_reverse.mp hy))]
    refine ih (ReplacementEngine.splice t s e d) hdesc'.2 hnov'.2 ?_
    intro y hy
    refine ⟨(hb y (List.mem_cons_of_mem _ hy)).1, ?_⟩
    exact le_trans (hrest y hy).2 (splice_length_ge t s e d (le_trans hx.1 hx.2))

/-- Witness for C9 at a concrete input: text `"abcdef"`, edits
`(4,5)↦"XY"` then `(1,2)↦"Z"`. -/
theorem applyEdits_eq_buildLinear_witness :
    ReplacementEngine.applyEdits "abcdef".toList
        [(4, 5, "XY".toList), (1, 2, "Z".toList)] =
      buildLinear "abcdef".toList 0
        [(4, 5, "XY".toList), (1, 2, "Z".toList)].reverse :=
  applyEdits_eq_buildLinear "abcdef".toList
    [(4, 5, "XY".toList), (1, 2, "Z".toList)]
    (by decide) (by decide) (by decide)

/-! ## Claim C1: the spans `smart_replace` actually applies -/

/-- C1 (amended).  For every text, replacement map and threshold override,
the replacement list `smart_replace` actually applies (`unique_replacements`)
has pairwise *distinct* `(start, end)` ranges and is ordered by descending
start offset.  (The original claim — that overlaps across entries are
re-resolved by score and hence no two applied spans overlap — is refuted by
`smart_replace_overlap_counterexample`: the source only drops exact-duplicate
ranges.) -/
theorem smart_replace_applied_ranges (F : ReplacementEngine.FuzzOps)
    (text : List Char) (replacement_map : List ReplacementEngine.ReplEntry)
    (custom_thresholds : String → Option ℚ) :
    (ReplacementEngine.smart_replace_unique F text replacement_map
        custom_thresholds).Pairwise
      (fun a b => ¬(a.1 = b.1 ∧ a.2.1 = b.2.1)) ∧
    List.Sorted ReplacementEngine.replGE
      (ReplacementEngine.smart_replace_unique F text replacement_map
        custom_thresholds) := by
  constructor
  · exact dedupRanges_pairwise _ []
  · exact (List.sorted_insertionSort ReplacementEngine.replGE _).sublist
      (dedupRanges_sublist _ [])

/-! ## Helper lemmas: whitespace-only texts yield no exact-pattern matches

`find_spans` returns the strategy-1 spans unresolved when the text has no
words; these lemmas show that in that situation (the text is all whitespace
and the target still has a word character) there are no strategy-1 spans at
all, so the early return is still non-overlapping and sorted. -/

theorem toLower_eq_of_pyWhitespace {c : Char} (h : pyWhitespace c = true) :
    c.toLower = c := by
  simp only [pyWhitespace, Bool.or_eq_true, decide_eq_true_eq] at h
  rcases h with ((((rfl | rfl) | rfl) | rfl) | rfl) | rfl <;> decide

theorem pyWhitespace_ofNat_add32 (m : Nat) (h1 : 65 ≤ m) (h2 : m ≤ 90) :
    pyWhitespace (Char.ofNat (m + 32)) = false := by
  interval_cases m <;> decide

theorem pyWhitespace_toLower_eq_false {c : Char} (hc : pyWhitespace c = false) :
    pyWhitespace c.toLower = false := by
  simp only [Char.toLower]
  split
  · next h => exact pyWhitespace_ofNat_add32 c.toNat h.1 h.2
  · exact hc

theorem splitRunsGo_tokens (sep : Char → Bool) :
    ∀ (s acc : List Char), (∀ c ∈ acc, sep c = false) →
      ∀ tok ∈ splitRunsGo sep s acc, tok ≠ [] ∧ ∀ c ∈ tok, sep c = false := by
  intro s
  induction s with
  | nil =>
    intro acc hacc tok htok
    simp only [splitRunsGo] at htok
    split at htok
    · simp at htok
    · next hne =>
      rcases List.mem_singleton.mp htok with rfl
      refine ⟨by simpa using hne, ?_⟩
      intro c hc
      exact hacc c (List.mem_reverse.mp hc)
  | cons c t ih =>
    intro acc hacc tok htok
    simp only [splitRunsGo] at htok
    split at htok
    · split at htok
      · exact ih [] (by simp) tok htok
      · next hne =>
        rcases List.mem_cons.mp htok with rfl | h'
        · refine ⟨by simpa using hne, ?_⟩
          intro d hd
          exact hacc d (List.mem_reverse.mp hd)
        · exact ih [] (by simp) tok h'
    · next hsep =>
      refine ih (c :: acc) ?_ tok htok
      intro d hd
      rcases List.mem_cons.mp hd with rfl | h'
      · exact Bool.not_eq_true _ ▸ hsep
      · exact hacc d h'

theorem splitRunsGo_ne_nil_of_acc (sep : Char → Bool) :
    ∀ (s acc : List Char), acc ≠ [] → splitRunsGo sep s acc ≠ [] := by
  intro s
  induction s with
  | nil =>
    intro acc hacc
    simp only [splitRunsGo]
    rw [if_neg hacc]
    simp
  | cons c t ih =>
    intro acc hacc
    simp only [splitRunsGo]
    split
    · simp [hacc]
    · exact ih (c :: acc) (by simp)

theorem splitRunsGo_ne_nil_of_nonsep (sep : Char → Bool) :
    ∀ (s : List Char), (∃ c ∈ s, sep c = false) →
      ∀ acc, splitRunsGo sep s acc ≠ [] := by
  intro s
  induction s with
  | nil =>
    intro hex
    simp at hex
  | cons c t ih =>
    intro hex acc
    simp only [splitRunsGo]
    by_cases hc : sep c = true
    · rw [if_pos hc]
      obtain ⟨d, hd, hdf⟩ := hex
      rcases List.mem_cons.mp hd with rfl | hd'
      · rw [hc] at hdf; cases hdf
      · split
        · exact ih ⟨d, hd', hdf⟩ []
        · simp
    · rw [if_neg hc]
      exact splitRunsGo_ne_nil_of_acc sep t (c :: acc) (by simp)

theorem splitRunsGo_all_sep (sep : Char → Bool) :
    ∀ (s : List Char), (∀ c ∈ s, sep c = true) → splitRunsGo sep s [] = [] := by
  intro s
  induction s with
  | nil => simp [splitRunsGo]
  | cons c t ih =>
    intro hall
    have hc := hall c (List.mem_cons_self _ _)
    rw [show splitRunsGo sep (c :: t) [] = splitRunsGo sep t [] by
      simp [splitRunsGo, hc]]
    exact ih fun d hd => hall d (List.mem_cons_of_mem _ hd)

theorem wordsGo_some_ne_nil :
    ∀ (s : List Char) (i j : Nat), wordsGo s i (some j) ≠ [] := by
  intro s
  induction s with
  | nil => intro i j; simp [wordsGo]
  | cons c t ih =>
    intro i j
    simp only [wordsGo]
    split
    · simp
    · exact ih (i + 1) j

theorem wordsGo_nil_all_ws :
    ∀ (s : List Char) (i : Nat), wordsGo s i none = [] →
      ∀ c ∈ s, pyWhitespace c = true := by
  intro s
  induction s with
  | nil => intro i _ c hc; cases hc
  | cons c t ih =>
    intro i h d hd
    simp only [wordsGo] at h
    split at h
    · next hws =>
      rcases List.mem_cons.mp hd with rfl | hd'
      · exact hws
      · exact ih (i + 1) h d hd'
    · exact absurd h (wordsGo_some_ne_nil t (i + 1) i)

theorem exists_nonsep_of_normalize_ne_nil (target : List Char)
    (h : ReplacementEngine.normalize target ≠ []) :
    ∃ c ∈ target, ReplacementEngine.sepComma c = false := by
  by_contra hall
  push_neg at hall
  apply h
  have hall' : ∀ c ∈ target, ReplacementEngine.sepComma c = true := by
    intro c hc
    have := hall c hc
    revert this
    cases ReplacementEngine.sepComma c <;> simp
  have hdep : ∀ d ∈ (target.map Char.toLower).map
      (fun c => if !isWordChar c && !pyWhitespace c then ' ' else c),
      pyWhitespace d = true := by
    intro d hd
    simp only [List.map_map, List.mem_map, Function.comp] at hd
    obtain ⟨c, hc, rfl⟩ := hd
    have hsep := hall' c hc
    simp only [ReplacementEngine.sepComma, Bool.or_eq_true, decide_eq_true_eq]
      at hsep
    rcases hsep with rfl | hws
    · decide
    · rw [toLower_eq_of_pyWhitespace hws]
      simp [hws]
  simp only [ReplacementEngine.normalize]
  unfold splitWs splitRuns
  rw [splitRunsGo_all_sep pyWhitespace _ hdep]
  simp [joinSpaces, List.intercalate]

theorem scanAux_none (step : Nat → Option Nat) (len : Nat)
    (hstep : ∀ p, step p = none) :
    ∀ (f pos : Nat), ReplacementEngine.scanAux step len f pos = [] := by
  intro f
  induction f with
  | zero => intro pos; simp [ReplacementEngine.scanAux]
  | succ f ih =>
    intro pos
    simp only [ReplacementEngine.scanAux]
    split
    · rfl
    · rw [hstep pos]
      exact ih (pos + 1)

theorem find_exact_patterns_eq_nil (F : ReplacementEngine.FuzzOps)
    (text target : List Char)
    (htext : ∀ c ∈ text, pyWhitespace c = true)
    (htar : ReplacementEngine.normalize target ≠ []) :
    ReplacementEngine.find_exact_patterns F text target = [] := by
  obtain ⟨c, hc, hcf⟩ := exists_nonsep_of_normalize_ne_nil target htar
  have hparts := splitRunsGo_ne_nil_of_nonsep ReplacementEngine.sepComma target
    ⟨c, hc, hcf⟩ []
  unfold ReplacementEngine.find_exact_patterns
  cases hp : splitRuns ReplacementEngine.sepComma target with
  | nil => exact absurd hp hparts
  | cons p ps =>
    have htok := splitRunsGo_tokens ReplacementEngine.sepComma target [] (by simp)
      p (by rw [show splitRunsGo ReplacementEngine.sepComma target [] =
        p :: ps from hp]; exact List.mem_cons_self _ _)
    obtain ⟨hpne, hpchars⟩ := htok
    cases p with
    | nil => exact absurd rfl hpne
    | cons c0 p' =>
      have hc0 : ReplacementEngine.sepComma c0 = false :=
        hpchars c0 (List.mem_cons_self _ _)
      have hc0ws : pyWhitespace c0 = false := by
        simp only [ReplacementEngine.sepComma, Bool.or_eq_false_iff] at hc0
        exact hc0.2
      have hstep : ∀ pos,
          ReplacementEngine.matchPartsAt ((c0 :: p') :: ps)
            ReplacementEngine.sepComma text pos = none := by
        intro pos
        simp only [ReplacementEngine.matchPartsAt]
        rw [if_neg]
        simp only [Bool.not_eq_true]
        unfold ReplacementEngine.litAt
        cases hd : text.drop pos with
        | nil => simp [List.isPrefixOf]
        | cons t0 ts =>
          have ht0 : pyWhitespace t0 = true :=
            htext t0 (List.mem_of_mem_drop (hd ▸ List.mem_cons_self _ _))
          simp only [List.map_cons, List.isPrefixOf, Bool.and_eq_false_iff]
          left
          have h1 : pyWhitespace c0.toLower = false :=
            pyWhitespace_toLower_eq_false hc0ws
          have h2 : t0.toLower = t0 := toLower_eq_of_pyWhitespace ht0
          rw [h2]
          simp only [beq_eq_false_iff_ne, ne_eq]
          intro he
          rw [he] at h1
          rw [ht0] at h1
          cases h1
      simp only [ReplacementEngine.scanMatches]
      rw [scanAux_none _ _ hstep]
      rfl

/-! ## Claim C8: `find_spans` returns non-overlapping, sorted spans -/

/-- C8.  For every fuzz-scoring interface, text, target value, field type and
custom threshold, the span list returned by `find_spans` is pairwise
non-overlapping (no two spans with `start1 < end2 ∧ start2 < end1`) and is
sorted by descending similarity score, ties broken by ascending start offset
— the order produced by the single greedy scan over the score-sorted
candidate list, in which the earlier-starting span wins among equal scores. -/
theorem find_spans_nonoverlap_sorted (F : ReplacementEngine.FuzzOps)
    (original_text target_value : List Char) (field_type : String)
    (custom_threshold : Option ℚ) :
    (ReplacementEngine.find_spans F original_text target_value field_type
        custom_threshold).Pairwise
      (fun a b => ¬(a.start < b.stop ∧ b.start < a.stop)) ∧
    List.Sorted ReplacementEngine.spanKeyLE
      (ReplacementEngine.find_spans F original_text target_value field_type
        custom_threshold) := by
  simp only [ReplacementEngine.find_spans]
  split_ifs with h1 h2 h3 h4 h5 <;>
    first
      | exact ⟨List.Pairwise.nil, List.sorted_nil⟩
      | exact ⟨resolveOverlaps_nonoverlap _, resolveOverlaps_sorted _⟩
      | · rw [find_exact_patterns_eq_nil F original_text target_value
            (wordsGo_nil_all_ws original_text 0
              (by simpa [wordsWithPos] using h3))
            (by
              intro hnil
              apply h1
              simp [hnil, splitWs, splitRuns, splitRunsGo])]
          constructor <;> simp

/-! ## Closed evaluations

The arithmetic of `ℚ` in Batteries is `@[irreducible]`; for kernel evaluation
of the concrete runs below the relevant operations are made semireducible
locally. -/

section ClosedEvaluations

attribute [local semireducible] Rat.mul Rat.inv Rat.add Rat.sub Rat.ofScientific

/-- Counterexample to C1 as stated.  Text `"abcd"` with two `Name` entries
`"abc" ↦ "XX"` and `"bcd" ↦ "YY"` and the per-field threshold override `101`
(so only strategy-1 exact matches survive, one per entry, at spans `(0,3)`
and `(1,4)`).  `smart_replace` applies BOTH spans even though
`0 < 4 ∧ 1 < 3`: across entries it drops only exact-duplicate ranges and
never re-resolves overlaps, so the applied span set violates the claimed
no-overlap guarantee. -/
theorem smart_replace_overlap_counterexample :
    (1, 4, "yy".toList) ∈
      ReplacementEngine.smart_replace_unique fuzzModel "abcd".toList
        [⟨"Name", "abc".toList, "XX".toList⟩, ⟨"Name", "bcd".toList, "YY".toList⟩]
        (fun f => if f = "Name" then some 101 else none) ∧
    (0, 3, "xx".toList) ∈
      ReplacementEngine.smart_replace_unique fuzzModel "abcd".toList
        [⟨"Name", "abc".toList, "XX".toList⟩, ⟨"Name", "bcd".toList, "YY".toList⟩]
        (fun f => if f = "Name" then some 101 else none) ∧
    (0 : Nat) < 4 ∧ (1 : Nat) < 3 := by
  decide

/-- C4: evaluation of `check_pii_leak` at the failing input.  A candidate
whose `matched_text` is empty is CONFIRMED as a real leak (the empty
normalized string is a substring of the normalized sensitive value
`"john"`), contradicting the documented behaviour that such an entry is
skipped and never appears in the confirmed output. -/
theorem check_pii_leak_empty_matched_confirmed :
    LeakDetection.check_pii_leak ["John"]
        [⟨"Name", "", 1, 50⟩] =
      ⟨true, 1, some [⟨"Name", "", 1, 50⟩], none⟩ := by
  decide

/-- Counterexample to C6 as stated.  The sensitive value `"-"` is non-blank
(`strip` leaves `"-"`), and its aggressive normalization is the empty string,
which is a substring of the candidate's normalized text — so the claimed
confirmation condition ("for at least one non-blank sensitive value, the
normalized candidate text contains the normalized sensitive value") holds —
yet `check_pii_leak` confirms nothing, because the code additionally skips
any value whose *normalization* is empty. -/
theorem check_pii_leak_nonblank_counterexample :
    pyStrip "-".toList ≠ [] ∧
    containsSub (LeakDetection.normalize "x".toList)
        (LeakDetection.normalize "-".toList) = true ∧
    LeakDetection.check_pii_leak ["-"] [⟨"Name", "x", 1, 50⟩] =
      ⟨false, 0, none, some "No original PII leakage found"⟩ := by
  decide

/-- Counterexample to C2 as stated.  Category `"Name"` has the non-empty
sensitive value `"A"` but no substitute pool at all; the claim says the
builder still records a placeholder entry for it, but `build_replacement_map`
skips the whole category (`if not dummy_pool: continue`), returns an empty
map, and the value is silently dropped. -/
theorem build_replacement_map_missing_pool_counterexample :
    MappingEngine.build_replacement_map (fun _ => 0) [] [("Name", ["A"])] []
        = [] ∧
    "A" ≠ "" := by
  decide

/-- Counterexample to C3 as stated.  A forward mapping with one entry whose
substitute is empty: `build_master_pii` skips it, so the reverse map has no
entry at all — not "exactly one reverse entry per forward entry for 100% of
entries". -/
theorem build_master_pii_counterexample :
    ¬ ∀ p ∈ ([("Name::a", ⟨"Name", "A", ""⟩)] : MappingEngine.RMap),
        ∃ q ∈ MappingEngine.build_master_pii
            [("Name::a", ⟨"Name", "A", ""⟩)],
          q.2.field = p.2.field ∧ q.2.original = p.2.dummy ∧
            q.2.dummy = p.2.original := by
  decide

/-- Counterexample to C7 as stated.  For the empty matched substring the
claim's conditional rules prescribe the lowercased substitute (the empty
string is not entirely uppercase and has no uppercase first character), but
`preserve_case` returns the substitute verbatim. -/
theorem preserve_case_empty_counterexample :
    ReplacementEngine.pyIsUpper [] = false ∧
    ReplacementEngine.preserve_case [] "ABC".toList = "ABC".toList ∧
    "ABC".toList.map Char.toLower = "abc".toList ∧
    ReplacementEngine.preserve_case [] "ABC".toList ≠
      "ABC".toList.map Char.toLower := by
  decide

end ClosedEvaluations

/-! ## Helper lemmas: the mapping builder -/

theorem lookup_append_some {k : String} {e : MappingEngine.MapEntry} :
    ∀ (m : MappingEngine.RMap), m.lookup k = some e →
      ∀ l, (m ++ l).lookup k = some e := by
  intro m
  induction m with
  | nil => intro h; simp [List.lookup] at h
  | cons a t ih =>
    intro h l
    obtain ⟨ka, va⟩ := a
    simp only [List.lookup, List.cons_append] at h ⊢
    split at h
    · exact h
    · exact ih h l

theorem lookup_append_none {k : String} :
    ∀ (m : MappingEngine.RMap), m.lookup k = none →
      ∀ l, (m ++ l).lookup k = l.lookup k := by
  intro m
  induction m with
  | nil => intro _ l; simp
  | cons a t ih =>
    intro h l
    obtain ⟨ka, va⟩ := a
    simp only [List.lookup, List.cons_append] at h ⊢
    split at h
    · cases h
    · exact ih h l

theorem process_value_mono (pick : List String → Nat) (f : String)
    (pool : List String) (st : MappingEngine.RMap × List String) (v : String)
    {k : String} {e : MappingEngine.MapEntry} (h : st.1.lookup k = some e) :
    ((MappingEngine.process_value pick f pool st v).1).lookup k = some e := by
  unfold MappingEngine.process_value
  simp only []
  split_ifs with h1 h2 h3 <;>
    first
      | exact h
      | exact lookup_append_some st.1 h _

theorem foldl_pv_mono (pick : List String → Nat) (f : String)
    (pool : List String) :
    ∀ (vs : List String) (st : MappingEngine.RMap × List String)
      {k : String} {e : MappingEngine.MapEntry}, st.1.lookup k = some e →
      ((vs.foldl (MappingEngine.process_value pick f pool) st).1).lookup k =
        some e := by
  intro vs
  induction vs with
  | nil => intro st k e h; exact h
  | cons v vs ih =>
    intro st k e h
    exact ih _ (process_value_mono pick f pool st v h)

theorem process_field_mono (pick : List String → Nat)
    (dummy_data : List (String × List String))
    (st : MappingEngine.RMap × List String) (fv : String × List String)
    {k : String} {e : MappingEngine.MapEntry} (h : st.1.lookup k = some e) :
    ((MappingEngine.process_field pick dummy_data st fv).1).lookup k = some e := by
  unfold MappingEngine.process_field
  simp only []
  split_ifs with h1
  · exact h
  · exact foldl_pv_mono pick fv.1 _ fv.2 st h

theorem foldl_pf_mono (pick : List String → Nat)
    (dummy_data : List (String × List String)) :
    ∀ (pii : List (String × List String))
      (st : MappingEngine.RMap × List String)
      {k : String} {e : MappingEngine.MapEntry}, st.1.lookup k = some e →
      ((pii.foldl (MappingEngine.process_field pick dummy_data) st).1).lookup k =
        some e := by
  intro pii
  induction pii with
  | nil => intro st k e h; exact h
  | cons fv pii ih =>
    intro st k e h
    exact ih _ (process_field_mono pick dummy_data st fv h)

theorem process_value_ensures (pick : List String → Nat) (f : String)
    (pool : List String) (st : MappingEngine.RMap × List String) (v : String)
    (hv : v ≠ "") :
    (((MappingEngine.process_value pick f pool st v).1).lookup
      (MappingEngine.mkKey f v)).isSome = true := by
  unfold MappingEngine.process_value
  rw [if_neg hv]
  simp only []
  split_ifs with h h2 <;>
    first
      | exact h
      | · have hnone : st.1.lookup (MappingEngine.mkKey f v) = none := by
            cases hh : st.1.lookup (MappingEngine.mkKey f v) with
            | none => rfl
            | some e => rw [hh] at h; simp at h
          rw [lookup_append_none st.1 hnone]
          simp [List.lookup]

theorem foldl_pv_ensures (pick : List String → Nat) (f : String)
    (pool : List String) :
    ∀ (vs : List String) (st : MappingEngine.RMap × List String) (v : String),
      v ∈ vs → v ≠ "" →
      (((vs.foldl (MappingEngine.process_value pick f pool) st).1).lookup
        (MappingEngine.mkKey f v)).isSome = true := by
  intro vs
  induction vs with
  | nil => intro st v hv; cases hv
  | cons w vs ih =>
    intro st v hv hne
    rcases List.mem_cons.mp hv with rfl | hv'
    · have h := process_value_ensures pick f pool st v hne
      obtain ⟨e, he⟩ := Option.isSome_iff_exists.mp h
      have := foldl_pv_mono pick f pool vs _ he
      simp only [List.foldl_cons]
      simp [this]
    · exact ih _ v hv' hne

theorem process_value_skip (pick : List String → Nat) (f : String)
    (pool : List String) (st : MappingEngine.RMap × List String) (v : String)
    (h : v = "" ∨ (st.1.lookup (MappingEngine.mkKey f v)).isSome = true) :
    MappingEngine.process_value pick f pool st v = st := by
  unfold MappingEngine.process_value
  rcases h with rfl | h
  · rw [if_pos rfl]
  · by_cases hv : v = ""
    · rw [if_pos hv]
    · rw [if_neg hv]
      simp only []
      rw [if_pos h]

theorem foldl_pv_skip (pick : List String → Nat) (f : String)
    (pool : List String) :
    ∀ (vs : List String) (st : MappingEngine.RMap × List String),
      (∀ v ∈ vs, v = "" ∨
        (st.1.lookup (MappingEngine.mkKey f v)).isSome = true) →
      vs.foldl (MappingEngine.process_value pick f pool) st = st := by
  intro vs
  induction vs with
  | nil => intro st _; rfl
  | cons v vs ih =>
    intro st h
    have hv := process_value_skip pick f pool st v (h v (List.mem_cons_self _ _))
    simp only [List.foldl_cons, hv]
    exact ih st fun w hw => h w (List.mem_cons_of_mem _ hw)

theorem process_field_skip (pick : List String → Nat)
    (dummy_data : List (String × List String))
    (st : MappingEngine.RMap × List String) (fv : String × List String)
    (h : (dummy_data.lookup fv.1).getD [] = [] ∨
      ∀ v ∈ fv.2, v = "" ∨
        (st.1.lookup (MappingEngine.mkKey fv.1 v)).isSome = true) :
    MappingEngine.process_field pick dummy_data st fv = st := by
  unfold MappingEngine.process_field
  simp only []
  rcases h with h | h
  · rw [if_pos h]
  · split_ifs with h1
    · rfl
    · exact foldl_pv_skip pick fv.1 _ fv.2 st h

theorem foldl_pf_skip (pick : List String → Nat)
    (dummy_data : List (String × List String)) :
    ∀ (pii : List (String × List String))
      (st : MappingEngine.RMap × List String),
      (∀ fv ∈ pii, (dummy_data.lookup fv.1).getD [] = [] ∨
        ∀ v ∈ fv.2, v = "" ∨
          (st.1.lookup (MappingEngine.mkKey fv.1 v)).isSome = true) →
      pii.foldl (MappingEngine.process_field pick dummy_data) st = st := by
  intro pii
  induction pii with
  | nil => intro st _; rfl
  | cons fv pii ih =>
    intro st h
    have hfv := process_field_skip pick dummy_data st fv
      (h fv (List.mem_cons_self _ _))
    simp only [List.foldl_cons, hfv]
    exact ih st fun gv hgv => h gv (List.mem_cons_of_mem _ hgv)

theorem foldl_pf_ensures (pick : List String → Nat)
    (dummy_data : List (String × List String)) :
    ∀ (pii : List (String × List String))
      (st : MappingEngine.RMap × List String) (f : String) (vs : List String)
      (v : String), (f, vs) ∈ pii →
      (dummy_data.lookup f).getD [] ≠ [] → v ∈ vs → v ≠ "" →
      (((pii.foldl (MappingEngine.process_field pick dummy_data) st).1).lookup
        (MappingEngine.mkKey f v)).isSome = true := by
  intro pii
  induction pii with
  | nil => intro st f vs v hmem; cases hmem
  | cons fv pii ih =>
    intro st f vs v hmem hpool hv hne
    rcases List.mem_cons.mp hmem with rfl | hmem'
    · have h1 : (((MappingEngine.process_field pick dummy_data st (f, vs)).1).lookup
          (MappingEngine.mkKey f v)).isSome = true := by
        unfold MappingEngine.process_field
        simp only []
        rw [if_neg hpool]
        exact foldl_pv_ensures pick f _ vs st v hv hne
      obtain ⟨e, he⟩ := Option.isSome_iff_exists.mp h1
      have := foldl_pf_mono pick dummy_data pii _ he
      simp only [List.foldl_cons]
      simp [this]
    · exact ih _ f vs v hmem' hpool hv hne

/-! ## Claim C5: the mapping builder is idempotent over the existing map -/

/-- C5.  The returned mapping never removes or alters a pre-existing entry
(every lookup that succeeded on `existing` succeeds unchanged on the result),
and re-running the builder on its own output with the same sensitive values
and pool — under any random choices — returns the output unchanged: no new
entries, no substitute reassignment. -/
theorem build_replacement_map_idempotent (pick pick2 : List String → Nat)
    (existing : MappingEngine.RMap) (pii dummy : List (String × List String)) :
    (∀ (k : String) (e : MappingEngine.MapEntry), existing.lookup k = some e →
      (MappingEngine.build_replacement_map pick existing pii dummy).lookup k =
        some e) ∧
    MappingEngine.build_replacement_map pick2
        (MappingEngine.build_replacement_map pick existing pii dummy) pii dummy =
      MappingEngine.build_replacement_map pick existing pii dummy := by
  constructor
  · intro k e h
    unfold MappingEngine.build_replacement_map
    exact foldl_pf_mono pick dummy pii _ h
  · set M := MappingEngine.build_replacement_map pick existing pii dummy with hM
    have hsk : ∀ fv ∈ pii, (dummy.lookup fv.1).getD [] = [] ∨
        ∀ v ∈ fv.2, v = "" ∨ (M.lookup (MappingEngine.mkKey fv.1 v)).isSome = true := by
      intro fv hfv
      by_cases hp : (dummy.lookup fv.1).getD [] = []
      · exact Or.inl hp
      · refine Or.inr fun v hv => ?_
        by_cases hve : v = ""
        · exact Or.inl hve
        · refine Or.inr ?_
          rw [hM]
          unfold MappingEngine.build_replacement_map
          exact foldl_pf_ensures pick dummy pii _ fv.1 fv.2 v
            (by rwa [show (fv.1, fv.2) = fv from rfl]) hp hv hve
    show MappingEngine.build_replacement_map pick2 M pii dummy = M
    unfold MappingEngine.build_replacement_map
    simp only []
    rw [foldl_pf_skip pick2 dummy pii (M, M.map fun p => p.2.dummy) hsk]

/-- Witness for C5: `existing` maps `"Name::a"`, the run adds `"Name::b"`;
the prior entry survives and a second run changes nothing. -/
theorem build_replacement_map_idempotent_witness :
    (MappingEngine.build_replacement_map (fun _ => 0)
        [("Name::a", ⟨"Name", "A", "Z"⟩)] [("Name", ["B"])]
        [("Name", ["X", "Y"])]).lookup "Name::a" = some ⟨"Name", "A", "Z"⟩ ∧
    MappingEngine.build_replacement_map (fun _ => 1)
        (MappingEngine.build_replacement_map (fun _ => 0)
          [("Name::a", ⟨"Name", "A", "Z"⟩)] [("Name", ["B"])]
          [("Name", ["X", "Y"])])
        [("Name", ["B"])] [("Name", ["X", "Y"])] =
      MappingEngine.build_replacement_map (fun _ => 0)
        [("Name::a", ⟨"Name", "A", "Z"⟩)] [("Name", ["B"])]
        [("Name", ["X", "Y"])] :=
  ⟨(build_replacement_map_idempotent (fun _ => 0) (fun _ => 1)
      [("Name::a", ⟨"Name", "A", "Z"⟩)] [("Name", ["B"])]
      [("Name", ["X", "Y"])]).1 "Name::a" ⟨"Name", "A", "Z"⟩ (by decide),
   (build_replacement_map_idempotent (fun _ => 0) (fun _ => 1)
      [("Name::a", ⟨"Name", "A", "Z"⟩)] [("Name", ["B"])]
      [("Name", ["X", "Y"])]).2⟩

/-! ## Claim C2: pool exhaustion versus an empty or missing pool -/

/-- C2 (amended).  When the category's pool is non-empty: every non-empty,
not-yet-mapped value receives an entry, and if every pool substitute is
already used the entry's substitute is the synthetic placeholder
`[REDACTED-<field>-<n>]` — the run never fails.  But when the pool is empty
or missing, `build_replacement_map` skips the whole category and its values
receive no entries at all (non-fatal, silently dropped) — refuting the
original claim's "empty or missing" half, per
`build_replacement_map_missing_pool_counterexample`. -/
theorem build_replacement_map_exhaustion (pick : List String → Nat)
    (f : String) :
    (∀ (pool used : List String) (m : MappingEngine.RMap) (v : String),
      v ≠ "" → m.lookup (MappingEngine.mkKey f v) = none →
      pool.filter (fun d => !used.contains d) = [] →
      (MappingEngine.process_value pick f pool (m, used) v).1 =
        m ++ [(MappingEngine.mkKey f v,
          ⟨f, v, MappingEngine.redacted f m.length⟩)]) ∧
    (∀ (existing : MappingEngine.RMap) (vs : List String),
      MappingEngine.build_replacement_map pick existing [(f, vs)] [] =
        existing) ∧
    (∀ (existing : MappingEngine.RMap) (vs pool : List String) (v : String),
      pool ≠ [] → v ∈ vs → v ≠ "" →
      ((MappingEngine.build_replacement_map pick existing [(f, vs)]
        [(f, pool)]).lookup (MappingEngine.mkKey f v)).isSome = true) := by
  refine ⟨?_, ?_, ?_⟩
  · intro pool used m v hv hnone hfilter
    unfold MappingEngine.process_value
    rw [if_neg hv]
    simp only []
    rw [if_neg (by simp [hnone])]
    simp only []
    rw [if_neg (by intro hne; exact hne hfilter)]
  · intro existing vs
    unfold MappingEngine.build_replacement_map
    simp only [List.foldl_cons, List.foldl_nil]
    rw [process_field_skip pick [] (existing, _) (f, vs)
      (Or.inl (by simp [List.lookup]))]
  · intro existing vs pool v hpool hv hne
    unfold MappingEngine.build_replacement_map
    simp only [List.foldl_cons, List.foldl_nil]
    unfold MappingEngine.process_field
    simp only []
    rw [if_neg (by simpa [List.lookup] using hpool)]
    exact foldl_pv_ensures pick f _ vs _ v hv hne

/-- Witness for C2: pool `["X"]` with `"X"` already used forces the
placeholder `[REDACTED-Name-0]`; a missing pool returns the map unchanged;
a live pool records the value. -/
theorem build_replacement_map_exhaustion_witness :
    (MappingEngine.process_value (fun _ => 0) "Name" ["X"] ([], ["X"]) "A").1 =
      [] ++ [(MappingEngine.mkKey "Name" "A",
        ⟨"Name", "A", MappingEngine.redacted "Name" 0⟩)] ∧
    MappingEngine.build_replacement_map (fun _ => 0) [] [("Name", ["A"])] [] =
      [] ∧
    ((MappingEngine.build_replacement_map (fun _ => 0) [] [("Name", ["A"])]
      [("Name", ["X"])]).lookup (MappingEngine.mkKey "Name" "A")).isSome =
      true :=
  ⟨(build_replacement_map_exhaustion (fun _ => 0) "Name").1 ["X"] ["X"] [] "A"
      (by decide) (by decide) (by decide),
   (build_replacement_map_exhaustion (fun _ => 0) "Name").2.1 [] ["A"],
   (build_replacement_map_exhaustion (fun _ => 0) "Name").2.2 [] ["A"] ["X"]
      "A" (by decide) (by decide) (by decide)⟩

/-! ## Helper lemmas: dict assignment and the reverse-map fold -/

theorem dictSet_lookup_self :
    ∀ (m : MappingEngine.RMap) (k : String) (v : MappingEngine.MapEntry),
      (MappingEngine.dictSet m k v).lookup k = some v := by
  intro m
  induction m with
  | nil => intro k v; simp [MappingEngine.dictSet, List.lookup]
  | cons a t ih =>
    intro k v
    obtain ⟨ka, va⟩ := a
    simp only [MappingEngine.dictSet]
    split_ifs with h
    · simp [List.lookup]
    · have hb : (k == ka) = false := beq_eq_false_iff_ne.mpr fun he => h he.symm
      simp only [List.lookup, hb]
      exact ih k v

theorem dictSet_lookup_ne :
    ∀ (m : MappingEngine.RMap) (k : String) (v : MappingEngine.MapEntry)
      (k' : String), k' ≠ k →
      (MappingEngine.dictSet m k v).lookup k' = m.lookup k' := by
  intro m
  induction m with
  | nil =>
    intro k v k' hne
    have hb : (k' == k) = false := beq_eq_false_iff_ne.mpr hne
    simp [MappingEngine.dictSet, List.lookup, hb]
  | cons a t ih =>
    intro k v k' hne
    obtain ⟨ka, va⟩ := a
    simp only [MappingEngine.dictSet]
    split_ifs with h
    · subst h
      have hb : (k' == ka) = false := beq_eq_false_iff_ne.mpr hne
      simp only [List.lookup, hb]
    · simp only [List.lookup]
      cases hkk : k' == ka
      · exact ih k v k' hne
      · rfl

theorem dictSet_length :
    ∀ (m : MappingEngine.RMap) (k : String) (v : MappingEngine.MapEntry),
      m.lookup k = none →
      (MappingEngine.dictSet m k v).length = m.length + 1 := by
  intro m
  induction m with
  | nil => intro k v _; rfl
  | cons a t ih =>
    intro k v h
    obtain ⟨ka, va⟩ := a
    simp only [List.lookup] at h
    split at h
    · cases h
    · next hb =>
      have hne : ¬ka = k := by
        intro he
        rw [he] at hb
        simp at hb
      simp only [MappingEngine.dictSet, if_neg hne, List.length_cons]
      rw [ih k v h]

theorem master_fold_preserves :
    ∀ (m : MappingEngine.RMap) (acc : MappingEngine.RMap) (k : String),
      (∀ p ∈ m, MappingEngine.revKey p.2 ≠ k) →
      (m.foldl MappingEngine.masterStep acc).lookup k = acc.lookup k := by
  intro m
  induction m with
  | nil => intro acc k _; rfl
  | cons p t ih =>
    intro acc k h
    simp only [List.foldl_cons]
    rw [ih _ k fun q hq => h q (List.mem_cons_of_mem _ hq)]
    unfold MappingEngine.masterStep
    split_ifs with hskip
    · rfl
    · exact dictSet_lookup_ne acc (MappingEngine.revKey p.2) _ k
        fun he => h p (List.mem_cons_self _ _) he.symm

theorem master_fold_spec :
    ∀ (m : MappingEngine.RMap) (acc : MappingEngine.RMap),
      (∀ p ∈ m, p.2.original ≠ "" ∧ p.2.dummy ≠ "") →
      ((m.map fun p => MappingEngine.revKey p.2).Nodup) →
      (∀ p ∈ m, acc.lookup (MappingEngine.revKey p.2) = none) →
      (∀ p ∈ m, (m.foldl MappingEngine.masterStep acc).lookup
          (MappingEngine.revKey p.2) =
        some ⟨p.2.field, p.2.dummy, p.2.original⟩) ∧
      (m.foldl MappingEngine.masterStep acc).length = acc.length + m.length := by
  intro m
  induction m with
  | nil =>
    intro acc _ _ _
    exact ⟨fun p hp => absurd hp (List.not_mem_nil p), by simp⟩
  | cons p t ih =>
    intro acc hne hnodup hacc
    have hpne := hne p (List.mem_cons_self _ _)
    have hstep : MappingEngine.masterStep acc p =
        MappingEngine.dictSet acc (MappingEngine.revKey p.2)
          ⟨p.2.field, p.2.dummy, p.2.original⟩ := by
      unfold MappingEngine.masterStep
      rw [if_neg]
      simp [hpne.1, hpne.2]
    have hmap : ((p :: t).map fun q => MappingEngine.revKey q.2) =
        MappingEngine.revKey p.2 ::
          (t.map fun q => MappingEngine.revKey q.2) := rfl
    rw [hmap] at hnodup
    have hnodup' := List.nodup_cons.mp hnodup
    have hacc' : ∀ q ∈ t,
        (MappingEngine.dictSet acc (MappingEngine.revKey p.2)
          ⟨p.2.field, p.2.dummy, p.2.original⟩).lookup
          (MappingEngine.revKey q.2) = none := by
      intro q hq
      rw [dictSet_lookup_ne]
      · exact hacc q (List.mem_cons_of_mem _ hq)
      · intro heq
        exact hnodup'.1 (heq ▸ List.mem_map.mpr ⟨q, hq, rfl⟩)
    obtain ⟨ih1, ih2⟩ := ih
      (MappingEngine.dictSet acc (MappingEngine.revKey p.2)
        ⟨p.2.field, p.2.dummy, p.2.original⟩)
      (fun q hq => hne q (List.mem_cons_of_mem _ hq)) hnodup'.2 hacc'
    constructor
    · intro q hq
      rcases List.mem_cons.mp hq with rfl | hq'
      · simp only [List.foldl_cons, hstep]
        rw [master_fold_preserves t _ _ ?hkeys]
        · exact dictSet_lookup_self acc _ _
        case hkeys =>
          intro r hr heq
          exact hnodup'.1 (heq ▸ List.mem_map.mpr ⟨r, hr, rfl⟩)
      · simp only [List.foldl_cons, hstep]
        exact ih1 q hq'
    · simp only [List.foldl_cons, hstep]
      rw [ih2, dictSet_length acc _ _ (hacc p (List.mem_cons_self _ _))]
      simp only [List.length_cons]
      omega

/-! ## Claim C3: `build_master_pii` is an exact inverse -/

/-- C3 (amended).  For every forward mapping whose entries all have a
non-empty original and substitute and whose reverse keys are pairwise
distinct, `build_master_pii` produces exactly one reverse entry per forward
entry — the entry `(category, substitute, original)` stored under the
reverse key — and for canonically keyed entries the reverse key of the
swapped entry is the original forward key, so forward-reverse-forward lookup
is the identity on keys.  (Without those hypotheses the claim is false:
`build_master_pii_counterexample` drops the entry whose substitute is
empty.) -/
theorem build_master_pii_exact_inverse (m : MappingEngine.RMap)
    (hne : ∀ p ∈ m, p.2.original ≠ "" ∧ p.2.dummy ≠ "")
    (hnodup : (m.map fun p => MappingEngine.revKey p.2).Nodup) :
    (∀ p ∈ m, (MappingEngine.build_master_pii m).lookup
        (MappingEngine.revKey p.2) =
      some ⟨p.2.field, p.2.dummy, p.2.original⟩) ∧
    (MappingEngine.build_master_pii m).length = m.length ∧
    (∀ p ∈ m, p.1 = MappingEngine.mkKey p.2.field p.2.original →
      MappingEngine.revKey
        (⟨p.2.field, p.2.dummy, p.2.original⟩ : MappingEngine.MapEntry) =
        p.1) := by
  have h := master_fold_spec m [] hne hnodup (by simp [List.lookup])
  refine ⟨h.1, by simpa using h.2, ?_⟩
  intro p _ hk
  exact hk.symm

/-- Witness for C3 at a one-entry canonical mapping. -/
theorem build_master_pii_exact_inverse_witness :
    (MappingEngine.build_master_pii
        [("Name::satya prakash", ⟨"Name", "Satya Prakash", "John Doe"⟩)]).lookup
        (MappingEngine.revKey ⟨"Name", "Satya Prakash", "John Doe"⟩) =
      some ⟨"Name", "John Doe", "Satya Prakash"⟩ :=
  (build_master_pii_exact_inverse
      [("Name::satya prakash", ⟨"Name", "Satya Prakash", "John Doe"⟩)]
      (by decide) (by decide)).1
    ("Name::satya prakash", ⟨"Name", "Satya Prakash", "John Doe"⟩)
    (by decide)

/-! ## Claim C6: the Leak Verifier's confirmation condition -/

section C6Evaluations

attribute [local semireducible] Rat.mul Rat.inv Rat.add Rat.sub Rat.ofScientific

/-- C6 (amended).  A candidate is confirmed by the Leak Verifier if and only
if some sensitive value is non-blank, normalizes to a NON-EMPTY string, and
the normalized candidate text contains that normalized value or vice versa
(first match wins via the loop's `break`; uniqueness is not required); the
confirmed output is exactly the list of such candidates.  A case/spacing
variant of a sensitive value is confirmed, an unrelated candidate is not.
(The original claim omitted the non-empty-normalization requirement; it
fails on the non-blank value `"-"`, see
`check_pii_leak_nonblank_counterexample`.) -/
theorem check_pii_leak_confirm_iff :
    (∀ (vals : List String) (nd : List Char),
      LeakDetection.leak_matches (LeakDetection.normalized_originals vals) nd =
          true ↔
        ∃ v ∈ vals, pyStrip v.toList ≠ [] ∧
          LeakDetection.normalize v.toList ≠ [] ∧
          (containsSub nd (LeakDetection.normalize v.toList) = true ∨
            containsSub (LeakDetection.normalize v.toList) nd = true)) ∧
    (∀ (vals : List String) (cands : List LeakDetection.LeakCandidate)
      (c : LeakDetection.LeakCandidate),
      (∃ l, (LeakDetection.check_pii_leak vals cands).leaks = some l ∧ c ∈ l) ↔
        (c ∈ cands ∧ LeakDetection.leak_matches
          (LeakDetection.normalized_originals vals)
          (LeakDetection.normalize c.matched_text.toList) = true)) ∧
    LeakDetection.check_pii_leak ["Satya Prakash"]
        [⟨"Name", "satya prakash", 1, 90⟩] =
      ⟨true, 1, some [⟨"Name", "satya prakash", 1, 90⟩], none⟩ ∧
    LeakDetection.check_pii_leak ["Satya Prakash"]
        [⟨"Name", "unrelated text", 1, 90⟩] =
      ⟨false, 0, none, some "No original PII leakage found"⟩ := by
  refine ⟨?_, ?_, by decide, by decide⟩
  · intro vals nd
    unfold LeakDetection.leak_matches LeakDetection.normalized_originals
    rw [List.any_eq_true]
    constructor
    · rintro ⟨o, ho, hcond⟩
      rw [List.mem_map] at ho
      obtain ⟨v, hv, rfl⟩ := ho
      rw [List.mem_filter] at hv
      rw [Bool.and_eq_true] at hcond
      refine ⟨v, hv.1, by simpa using hv.2, by simpa using hcond.1,
        by simpa using hcond.2⟩
    · rintro ⟨v, hv, hstrip, hnorm, hcont⟩
      refine ⟨LeakDetection.normalize v.toList,
        List.mem_map.mpr
          ⟨v, List.mem_filter.mpr ⟨hv, by simpa using hstrip⟩, rfl⟩, ?_⟩
      rw [Bool.and_eq_true]
      refine ⟨by simpa using hnorm, ?_⟩
      simpa using hcont
  · intro vals cands c
    unfold LeakDetection.check_pii_leak
    simp only []
    split_ifs with h
    · constructor
      · rintro ⟨l, hl, hc⟩
        have hl' := Option.some.inj hl
        rw [← hl'] at hc
        exact List.mem_filter.mp hc
      · intro hcm
        exact ⟨_, rfl, List.mem_filter.mpr hcm⟩
    · constructor
      · rintro ⟨l, hl, _⟩
        cases hl
      · intro hcm
        have hmem : c ∈ cands.filter fun item =>
            LeakDetection.leak_matches (LeakDetection.normalized_originals vals)
              (LeakDetection.normalize item.matched_text.toList) :=
          List.mem_filter.mpr hcm
        rw [not_ne_iff.mp h] at hmem
        cases hmem

end C6Evaluations

/-! ## Claim C10: internal consistency of the verdict -/

/-- C10.  For any inputs the verdict is internally consistent: the
`real_pii_leak` flag is true exactly when `total_real_leaks` is positive,
`total_real_leaks` always equals the length of the `leaks` list (with the
list absent exactly when the count is zero), and each candidate contributes
at most one confirmed record, so the count never exceeds the number of
candidates. -/
theorem check_pii_leak_verdict_consistent (vals : List String)
    (cands : List LeakDetection.LeakCandidate) :
    ((LeakDetection.check_pii_leak vals cands).real_pii_leak = true ↔
      0 < (LeakDetection.check_pii_leak vals cands).total_real_leaks) ∧
    (LeakDetection.check_pii_leak vals cands).total_real_leaks =
      (((LeakDetection.check_pii_leak vals cands).leaks).getD []).length ∧
    ((LeakDetection.check_pii_leak vals cands).leaks = none ↔
      (LeakDetection.check_pii_leak vals cands).total_real_leaks = 0) ∧
    (LeakDetection.check_pii_leak vals cands).total_real_leaks ≤
      cands.length := by
  unfold LeakDetection.check_pii_leak
  simp only []
  split_ifs with h
  · refine ⟨by simpa using List.length_pos.mpr h, by simp, ?_, ?_⟩
    · constructor
      · intro hx; cases hx
      · intro hx
        exact absurd (List.length_eq_zero.mp hx) h
    · exact List.length_filter_le _ _
  · simp

/-! ## Claim C7: the case-mimicry law -/

/-- C7 (amended).  For every NON-EMPTY matched substring, `preserve_case`
obeys the claimed rules: entirely-uppercase matches uppercase the substitute;
otherwise an uppercase first character title-cases each word of the
substitute; otherwise the substitute is lowercased.  And when a field's
config disables case mimicry, `smart_replace` (via `final_dummy`) uses the
substitute verbatim.  (For an EMPTY matched substring the code returns the
substitute verbatim instead of lowercasing it, refuting the unrestricted
claim — see `preserve_case_empty_counterexample`.) -/
theorem preserve_case_law :
    (∀ o r : List Char, o ≠ [] →
      (ReplacementEngine.pyIsUpper o = true →
        ReplacementEngine.preserve_case o r = r.map Char.toUpper) ∧
      (∀ c t, o = c :: t → ReplacementEngine.pyIsUpper o = false →
        c.isUpper = true →
        ReplacementEngine.preserve_case o r =
          joinSpaces ((splitWs r).map ReplacementEngine.pyCapitalize)) ∧
      (∀ c t, o = c :: t → ReplacementEngine.pyIsUpper o = false →
        c.isUpper = false →
        ReplacementEngine.preserve_case o r = r.map Char.toLower)) ∧
    (∀ (cfg : ReplacementEngine.FieldConfig) (m d : List Char),
      cfg.preserve_case = false → ReplacementEngine.final_dummy cfg m d = d) := by
  constructor
  · intro o r ho
    by_cases hr : r = []
    · subst hr
      have hpc : ReplacementEngine.preserve_case o [] = [] := by
        unfold ReplacementEngine.preserve_case
        rw [if_pos (by simp)]
      refine ⟨fun _ => by rw [hpc]; rfl,
        fun c t _ _ _ => by rw [hpc]; rfl,
        fun c t _ _ _ => by rw [hpc]; rfl⟩
    · refine ⟨?_, ?_, ?_⟩
      · intro hu
        unfold ReplacementEngine.preserve_case
        rw [if_neg (by simp [ho, hr]), if_pos hu]
      · intro c t hct hu hc
        subst hct
        unfold ReplacementEngine.preserve_case
        rw [if_neg (by simp [hr]), if_neg (by simp [hu])]
        dsimp only
        rw [if_pos hc]
      · intro c t hct hu hc
        subst hct
        unfold ReplacementEngine.preserve_case
        rw [if_neg (by simp [hr]), if_neg (by simp [hu])]
        dsimp only
        rw [if_neg (by simp [hc])]
  · intro cfg m d h
    unfold ReplacementEngine.final_dummy
    rw [if_neg (by simp [h])]

/-- Witness for C7: matched `"John Smith"` with substitute `"jane doe"`
takes the title-case branch, and the case-mimicry-disabled `MRN` config uses
the substitute verbatim. -/
theorem preserve_case_law_witness :
    ReplacementEngine.preserve_case "John Smith".toList "jane doe".toList =
      joinSpaces ((splitWs "jane doe".toList).map
        ReplacementEngine.pyCapitalize) ∧
    ReplacementEngine.final_dummy (ReplacementEngine.FIELD_CONFIG "MRN")
      "701326527".toList "000000001".toList = "000000001".toList :=
  ⟨(preserve_case_law.1 "John Smith".toList "jane doe".toList (by decide)).2.1
      'J' "ohn Smith".toList (by decide) (by decide) (by decide),
   preserve_case_law.2 (ReplacementEngine.FIELD_CONFIG "MRN")
     "701326527".toList "000000001".toList (by decide)⟩

end PdfExtractor
